import Mathlib

/-!
Verification of the lecture-demo notebooks of the
Principles-of-Machine-Learning repository.

We give a shallow embedding of the Python functions the claims are about,
over exact arithmetic (ℚ for NumPy floats, ℤ/ℕ for integer indices):

* `DSA5102_RL_modelfree.ipynb` : `parse_state`, `parse_reward`,
  `choose_action`, `update_Q` and the Q-table shape constants;
* `DSA5102_decision_trees.ipynb` : `policy_evaluation`,
  `compute_action_value`, `policy_improvement`, `policy_iteration`;
* `DSA5102_statistical_learning.ipynb` : `indicator`, `algorithm_p_hat`;
* `DSA5102_PCA.ipynb` : the latent-space distance and index slice inside
  `recommend`.

NumPy arrays become Lean lists (or total functions out of an index type
where the code treats the array purely as a table); in-place mutation
becomes returning the updated table.
-/

namespace PML

/-! ## Model-free RL notebook: state discretization

Python source:
```
bin_size = 10
n_bins_dist = np.ceil(350 / bin_size).astype('int')
n_bins_top = np.ceil(1024 / bin_size).astype('int')
n_bins_bot = np.ceil(1024 / bin_size).astype('int')

def parse_state(game_state):
    state = np.zeros((3, ), dtype=int)
    state[0] = game_state['next_pipe_dist_to_player'] // bin_size
    state[1] = (game_state['next_pipe_top_y'] - game_state['player_y'] +
                512) // bin_size
    state[2] = (game_state['next_pipe_bottom_y'] - game_state['player_y'] +
                512) // bin_size
    return state
```
Game-state fields are numbers (floats in the game engine), so we model
them as ℚ; Python `//` is floor division, i.e. `Int.floor` of the true
quotient. -/

def bin_size : ℚ := 10

def n_bins_dist : ℤ := ⌈(350 : ℚ) / bin_size⌉

def n_bins_top : ℤ := ⌈(1024 : ℚ) / bin_size⌉

def n_bins_bot : ℤ := ⌈(1024 : ℚ) / bin_size⌉

/-- The three fields of `game_state` that `parse_state` reads. -/
structure GameState where
  next_pipe_dist_to_player : ℚ
  next_pipe_top_y : ℚ
  next_pipe_bottom_y : ℚ
  player_y : ℚ

def parse_state (g : GameState) : ℤ × ℤ × ℤ :=
  (⌊g.next_pipe_dist_to_player / bin_size⌋,
   ⌊(g.next_pipe_top_y - g.player_y + 512) / bin_size⌋,
   ⌊(g.next_pipe_bottom_y - g.player_y + 512) / bin_size⌋)

/-! ## Model-free RL notebook: reward, action choice, Q update

Python source:
```
def parse_reward(game_reward):
    return 1.0 if game_reward>= 0 else -100.0

def choose_action(state, Q):
    q_up, q_nothing = Q[tuple(state)]
    return 0 if q_up > q_nothing else 1

action_dict = {0: 119, 1: None}

def update_Q(Q, state, next_state, action, reward, alpha, gamma):
    Q_new = reward + gamma * np.max(Q[tuple(next_state)])
    Q_old = Q[tuple(state)][action]
    Q[tuple(state)][action] = (1 - alpha) * Q_old + alpha * Q_new

Q = np.zeros((n_bins_dist, n_bins_top, n_bins_bot, 2))
```
The Q tensor is indexed by a (three-component) state and one of two
actions; we model it as a total function `S → Fin 2 → ℚ` over an
arbitrary state index type `S` with decidable equality (in the notebook
`S` is the triple of bin indices).  `np.max(Q[tuple(next_state)])` is the
maximum over the two-entry action axis.  The in-place assignment becomes
returning the updated table. -/

def parse_reward (game_reward : ℚ) : ℚ :=
  if 0 ≤ game_reward then 1 else -100

def choose_action {S : Type} (state : S) (Q : S → Fin 2 → ℚ) : ℕ :=
  let q_up := Q state 0
  let q_nothing := Q state 1
  if q_up > q_nothing then 0 else 1

/-- `action_dict = {0: 119, 1: None}` : key 119 is the jump keypress,
`None` does nothing. -/
def action_dict (a : ℕ) : Option ℕ :=
  if a = 0 then some 119 else none

def update_Q {S : Type} [DecidableEq S] (Q : S → Fin 2 → ℚ)
    (state next_state : S) (action : Fin 2) (reward alpha gamma : ℚ) :
    S → Fin 2 → ℚ :=
  let Q_new := reward + gamma * max (Q next_state 0) (Q next_state 1)
  let Q_old := Q state action
  fun t b => if t = state ∧ b = action then (1 - alpha) * Q_old + alpha * Q_new
             else Q t b

/-- The all-zero initial Q table, `Q = np.zeros((...))`. -/
def zero_Q {S : Type} : S → Fin 2 → ℚ := fun _ _ => 0

/-- One recorded call to `update_Q` (the discount `gamma` is held fixed
across a training run, so it is not a field). -/
structure QUpdate (S : Type) where
  state : S
  next_state : S
  action : Fin 2
  reward : ℚ
  alpha : ℚ

/-- Apply a finite sequence of `update_Q` calls, left to right, all with
the same discount `gamma`. -/
def apply_updates {S : Type} [DecidableEq S] (gamma : ℚ)
    (us : List (QUpdate S)) (Q : S → Fin 2 → ℚ) : S → Fin 2 → ℚ :=
  us.foldl (fun Q u => update_Q Q u.state u.next_state u.action u.reward u.alpha gamma) Q

/-! ## Helper: NumPy max / argmax over a 1-D array

`np.max` of a nonempty array is the left fold of `max` over it;
`np.argmax` returns the position of the *first* occurrence of the
maximum.  Both are only ever applied to nonempty arrays in the
notebooks. -/

def np_max : List ℚ → ℚ
  | [] => 0
  | h :: t => t.foldl max h

def np_argmax (l : List ℚ) : ℕ := l.indexOf (np_max l)

/-! ## Decision-trees notebook: model-based policy iteration

Python source:
```
def policy_evaluation(env, policy, gamma, max_iter):
    value_function = np.zeros(env.nS)
    for _ in range(max_iter):
        tmp = np.zeros_like(value_function)
        for state, action in enumerate(policy):
            for probablity, next_state, reward, _ in env.P[state][action]:
                tmp[state] += probablity * (
                    reward + gamma * value_function[next_state])
        value_function = tmp
    return value_function

def compute_action_value(env, state, value_function, gamma):
    action_values = np.zeros(env.nA)
    for action in range(env.nA):
        for probablity, next_state, reward, info in env.P[state][action]:
            action_values[action] += probablity * (
                reward + (gamma * value_function[next_state]))
    return action_values

def policy_improvement(env, value_function, gamma):
    policy = np.zeros(env.nS)
    for state in range(env.nS):
        action_values = compute_action_value(env, state, value_function, gamma)
        policy[state] = np.argmax(action_values)
    return policy

def policy_iteration(env, max_iter=100):
    policy = np.random.choice(range(env.nA), size=(env.nS))
    policy_prev = np.copy(policy)
    for i in range(max_iter):
        value_function = policy_evaluation(env, policy, 1.0, 100)
        policy = policy_improvement(env, value_function, 1.0)
    return value_function, policy
```
The environment supplies `nS`, `nA` and the transition table `P`; each
entry of `P[state][action]` is a tuple `(probability, next_state,
reward, done)` whose last component is never read by these functions, so
we keep triples.  Value functions and policies are lists of length `nS`.
The random initial policy of `policy_iteration` becomes an explicit
parameter.  `policy_prev` is kept in the Python source "to check for
convergence" but is never read again — the loop has no early exit — so
it has no counterpart here.  When `max_iter = 0` the Python `return`
reads the never-assigned local `value_function` and the call raises
`UnboundLocalError` instead of returning; we model the result as an
`Option` that is `none` in exactly that case. -/

structure Env where
  nS : ℕ
  nA : ℕ
  P : ℕ → ℕ → List (ℚ × ℕ × ℚ)

/-- The inner accumulation shared by `policy_evaluation` and
`compute_action_value`: `Σ p·(r + γ·v[s'])` over `env.P[s][a]`. -/
def backup (env : Env) (gamma : ℚ) (v : List ℚ) (s a : ℕ) : ℚ :=
  (env.P s a).foldl (fun acc t => acc + t.1 * (t.2.2 + gamma * v.getD t.2.1 0)) 0

/-- One sweep of the evaluation loop: the fresh `tmp` array.  `tmp` has
length `env.nS` and only the states enumerated by `policy` are filled. -/
def sweep (env : Env) (policy : List ℕ) (gamma : ℚ) (v : List ℚ) : List ℚ :=
  (List.range env.nS).map fun s =>
    if s < policy.length then backup env gamma v s (policy.getD s 0) else 0

def policy_evaluation (env : Env) (policy : List ℕ) (gamma : ℚ) (max_iter : ℕ) :
    List ℚ :=
  (sweep env policy gamma)^[max_iter] (List.replicate env.nS 0)

def compute_action_value (env : Env) (state : ℕ) (v : List ℚ) (gamma : ℚ) :
    List ℚ :=
  (List.range env.nA).map fun a => backup env gamma v state a

def policy_improvement (env : Env) (v : List ℚ) (gamma : ℚ) : List ℕ :=
  (List.range env.nS).map fun s => np_argmax (compute_action_value env s v gamma)

/-- One round of the `policy_iteration` loop body: evaluate the current
policy (γ = 1.0, exactly 100 sweeps), then improve greedily (γ = 1.0). -/
def pi_round (env : Env) (policy : List ℕ) : List ℚ × List ℕ :=
  let value_function := policy_evaluation env policy 1 100
  (value_function, policy_improvement env value_function 1)

def policy_iteration (env : Env) (policy0 : List ℕ) (max_iter : ℕ) :
    Option (List ℚ × List ℕ) :=
  match max_iter with
  | 0 => none
  | n + 1 => some (pi_round env ((fun p => (pi_round env p).2)^[n] policy0))

/-- The two-state, two-action deterministic environment used to settle
the monotonicity claim: from state 0 both actions yield reward −1
(action 0 stays, action 1 moves to state 1); from state 1 action 0 stays
with reward 0 and action 1 returns to state 0 with reward +1. -/
def env2 : Env :=
  ⟨2, 2, fun s a =>
    if s = 0 then (if a = 0 then [(1, 0, -1)] else [(1, 1, -1)])
    else (if a = 0 then [(1, 1, 0)] else [(1, 0, 1)])⟩

/-- A one-state, one-action environment (self loop, reward 0), used to
exercise `policy_iteration` with `max_iter = 0`. -/
def env1 : Env := ⟨1, 1, fun _ _ => [(1, 0, 0)]⟩

/-! ## Statistical-learning notebook: labeling rule and the p-hat estimator

Python source:
```
def indicator(x, p):
    """Returns 1 (Heads) if x < p and 0 (Tails) otherwise"""
    return np.where(x < p, np.ones_like(x), np.zeros_like(x))

def algorithm_p_hat(x, y):
    y_heads = y==1.0
    if np.all(~y_heads):
        return 0.0
    else:
        return np.max(x[y_heads])
```
`x[y_heads]` is the boolean-mask selection of the entries of `x` at the
positions where `y == 1.0`; we realise it by zipping `x` with `y` and
filtering.  `np.all(~y_heads)` holds exactly when that selection is
empty (vacuously on empty arrays). -/

def indicator (x : List ℚ) (p : ℚ) : List ℚ :=
  x.map (fun v => if v < p then 1 else 0)

/-- The masked selection `x[y == 1.0]`. -/
def heads_values (x y : List ℚ) : List ℚ :=
  ((x.zip y).filter (fun t => decide (t.2 = 1))).map Prod.fst

def algorithm_p_hat (x y : List ℚ) : ℚ :=
  if (heads_values x y).isEmpty then 0 else np_max (heads_values x y)

/-! ## PCA notebook: the recommender's distance-and-slice core

Python source (the `print` calls and the description lookups render
output and are not part of the computation):
```
def recommend(bought_id, num_recommendation=5):
    # Compute PC scores using only first 10 components
    scores = latents.to_numpy()[:, :10]
    # Compute L^2 distances to the input Score
    distances = np.sum((scores - scores[bought_id, np.newaxis, :])**2, axis=1)
    # Return recommendations based on closest products in PCA latent space
    rec_ids = np.argsort(distances)[1:1+num_recommendation]
    ...
```
The latent matrix becomes a list of rows; truncation to the first 10
components is `List.take 10` per row.  `np.argsort` returns a
permutation of the row indices along which the distances are ascending;
with ties the order among equals is unspecified by NumPy, and any
ascending arrangement (here: a stable insertion sort on the indices) is
a faithful model.  The slice `[1:1+n]` is `drop 1` then `take n`. -/

def sq_dist_10 (a b : List ℚ) : ℚ :=
  (((a.take 10).zip (b.take 10)).map (fun t => (t.1 - t.2) ^ 2)).foldl (· + ·) 0

def distances (scores : List (List ℚ)) (bought_id : ℕ) : List ℚ :=
  scores.map (fun row => sq_dist_10 row (scores.getD bought_id []))

def np_argsort (d : List ℚ) : List ℕ :=
  List.insertionSort (fun i j => d.getD i 0 ≤ d.getD j 0) (List.range d.length)

def recommend (scores : List (List ℚ)) (bought_id num_recommendation : ℕ) : List ℕ :=
  ((np_argsort (distances scores bought_id)).drop 1).take num_recommendation

end PML

namespace PML

/-! Helper lemmas about `np_max` and `np_argmax`. -/

theorem le_foldl_max (t : List ℚ) (a : ℚ) : a ≤ t.foldl max a := by
  induction t generalizing a with
  | nil => exact le_refl a
  | cons h rest ih => exact le_trans (le_max_left a h) (ih (max a h))

theorem foldl_max_ge_mem (t : List ℚ) (a : ℚ) : ∀ x ∈ t, x ≤ t.foldl max a := by
  induction t generalizing a with
  | nil => intro x hx; exact absurd hx (List.not_mem_nil x)
  | cons h rest ih =>
    intro x hx
    rcases List.mem_cons.1 hx with rfl | hx
    · exact le_trans (le_max_right a x) (le_foldl_max rest (max a x))
    · exact ih (max a h) x hx

theorem foldl_max_mem (t : List ℚ) (a : ℚ) : t.foldl max a = a ∨ t.foldl max a ∈ t := by
  induction t generalizing a with
  | nil => exact Or.inl rfl
  | cons h rest ih =>
    rcases ih (max a h) with heq | hmem
    · rcases max_choice a h with hc | hc
      · exact Or.inl (by rw [List.foldl_cons, heq, hc])
      · exact Or.inr (by rw [List.foldl_cons, heq, hc]; exact List.mem_cons_self h rest)
    · exact Or.inr (List.mem_cons_of_mem h hmem)

theorem np_max_mem {l : List ℚ} (h : l ≠ []) : np_max l ∈ l := by
  match l, h with
  | h₀ :: t, _ =>
    rcases foldl_max_mem t h₀ with heq | hmem
    · rw [np_max, heq]; exact List.mem_cons_self h₀ t
    · exact List.mem_cons_of_mem h₀ hmem

theorem np_max_ge {l : List ℚ} : ∀ x ∈ l, x ≤ np_max l := by
  match l with
  | [] => intro x hx; exact absurd hx (List.not_mem_nil x)
  | h₀ :: t =>
    intro x hx
    rcases List.mem_cons.1 hx with rfl | hx
    · exact le_foldl_max t x
    · exact foldl_max_ge_mem t h₀ x hx

theorem np_argmax_lt_length {l : List ℚ} (h : l ≠ []) : np_argmax l < l.length :=
  List.indexOf_lt_length.2 (np_max_mem h)

theorem getD_np_argmax {l : List ℚ} (h : l ≠ []) : l.getD (np_argmax l) 0 = np_max l := by
  rw [List.getD_eq_getElem l 0 (np_argmax_lt_length h)]
  exact List.getElem_indexOf (List.indexOf_lt_length.2 (np_max_mem h))

/-- **C2.** `update_Q` stores `(1-α)·Q_old + α·(r + γ·max_a' Q[s'][a'])`
in `Q[s][a]`, a convex combination of the previous estimate and the
bootstrapped target; for `α ∈ (0,1)` the new entry lies (inclusively)
between the old value and the target. -/
theorem update_Q_convex_combination {S : Type} [DecidableEq S]
    (Q : S → Fin 2 → ℚ) (s s' : S) (a : Fin 2) (r gamma : ℚ) (alpha : ℚ)
    (h0 : 0 < alpha) (h1 : alpha < 1) :
    update_Q Q s s' a r alpha gamma s a =
      (1 - alpha) * Q s a + alpha * (r + gamma * max (Q s' 0) (Q s' 1)) ∧
    min (Q s a) (r + gamma * max (Q s' 0) (Q s' 1)) ≤
      update_Q Q s s' a r alpha gamma s a ∧
    update_Q Q s s' a r alpha gamma s a ≤
      max (Q s a) (r + gamma * max (Q s' 0) (Q s' 1)) := by
  set tgt := r + gamma * max (Q s' 0) (Q s' 1) with htgt
  have hval : update_Q Q s s' a r alpha gamma s a = (1 - alpha) * Q s a + alpha * tgt := by
    simp [update_Q]
  refine ⟨hval, ?_, ?_⟩
  · rcases min_cases (Q s a) tgt with ⟨hm, hle⟩ | ⟨hm, hle⟩ <;> rw [hval, hm] <;> nlinarith
  · rcases max_cases (Q s a) tgt with ⟨hm, hle⟩ | ⟨hm, hle⟩ <;> rw [hval, hm] <;> nlinarith

theorem update_Q_convex_combination_witness :
    (0 : ℚ) < 1/2 ∧ (1/2 : ℚ) < 1 ∧
    (update_Q (zero_Q (S := Fin 1)) 0 0 0 4 (1/2) (1/2) 0 0 =
        (1 - 1/2) * zero_Q (S := Fin 1) 0 0 +
          (1/2) * (4 + (1/2) * max (zero_Q (S := Fin 1) 0 0) (zero_Q (S := Fin 1) 0 1)) ∧
      min (zero_Q (S := Fin 1) 0 0)
          (4 + (1/2) * max (zero_Q (S := Fin 1) 0 0) (zero_Q (S := Fin 1) 0 1)) ≤
        update_Q (zero_Q (S := Fin 1)) 0 0 0 4 (1/2) (1/2) 0 0 ∧
      update_Q (zero_Q (S := Fin 1)) 0 0 0 4 (1/2) (1/2) 0 0 ≤
        max (zero_Q (S := Fin 1) 0 0)
          (4 + (1/2) * max (zero_Q (S := Fin 1) 0 0) (zero_Q (S := Fin 1) 0 1))) :=
  ⟨by norm_num, by norm_num,
   update_Q_convex_combination (zero_Q (S := Fin 1)) 0 0 0 4 (1/2) (1/2)
     (by norm_num) (by norm_num)⟩

/-- **C7.** Frame property: `update_Q` changes only the entry at
`(state, action)`; every other entry of the Q table is unchanged (the
table's index type, hence its shape, is untouched). -/
theorem update_Q_frame {S : Type} [DecidableEq S]
    (Q : S → Fin 2 → ℚ) (s s' : S) (a : Fin 2) (r alpha gamma : ℚ)
    (t : S) (b : Fin 2) (h : ¬(t = s ∧ b = a)) :
    update_Q Q s s' a r alpha gamma t b = Q t b := by
  simp [update_Q, h]

theorem update_Q_frame_witness :
    ¬(((1 : Fin 2), (0 : Fin 2)) = ((0 : Fin 2), (0 : Fin 2))) ∧
    update_Q (zero_Q (S := Fin 2)) 0 1 0 7 (1/2) (9/10) 1 0 = zero_Q (S := Fin 2) 1 0 :=
  ⟨by decide,
   update_Q_frame (zero_Q (S := Fin 2)) 0 1 0 7 (1/2) (9/10) 1 0
     (by intro h; exact absurd h.1 (by decide))⟩

/-- Single-step preservation of the reward-derived bounds: one `update_Q`
call keeps every entry inside `[lo/(1-γ), hi/(1-γ)]` scaled bounds. -/
theorem update_Q_preserves_bounds {S : Type} [DecidableEq S]
    {Q : S → Fin 2 → ℚ} {gamma lo hi : ℚ}
    (hg0 : 0 < gamma) (hg1 : gamma < 1)
    (hQ : ∀ t b, lo / (1 - gamma) ≤ Q t b ∧ Q t b ≤ hi / (1 - gamma))
    {s s' : S} {a : Fin 2} {r alpha : ℚ}
    (ha0 : 0 < alpha) (ha1 : alpha < 1) (hr : lo ≤ r ∧ r ≤ hi) :
    ∀ t b, lo / (1 - gamma) ≤ update_Q Q s s' a r alpha gamma t b ∧
           update_Q Q s s' a r alpha gamma t b ≤ hi / (1 - gamma) := by
  intro t b
  unfold update_Q
  by_cases h : t = s ∧ b = a
  · simp only [h, and_self, if_true]
    have hgpos : (0 : ℚ) < 1 - gamma := by linarith
    have hlo : lo / (1 - gamma) * (1 - gamma) = lo := div_mul_cancel₀ lo (ne_of_gt hgpos)
    have hhi : hi / (1 - gamma) * (1 - gamma) = hi := div_mul_cancel₀ hi (ne_of_gt hgpos)
    have hM0 := hQ s' 0
    have hM1 := hQ s' 1
    have hsa := hQ s a
    have hMlo : lo / (1 - gamma) ≤ max (Q s' 0) (Q s' 1) := le_trans hM0.1 (le_max_left _ _)
    have hMhi : max (Q s' 0) (Q s' 1) ≤ hi / (1 - gamma) :=
      max_le hM0.2 hM1.2
    -- the bootstrapped target stays within the bounds:
    -- r + γ·M ≤ hi + γ·hi/(1-γ) = hi/(1-γ), and symmetrically below
    have htgt_hi : r + gamma * max (Q s' 0) (Q s' 1) ≤ hi / (1 - gamma) := by
      nlinarith [hr.2, hMhi]
    have htgt_lo : lo / (1 - gamma) ≤ r + gamma * max (Q s' 0) (Q s' 1) := by
      nlinarith [hr.1, hMlo]
    constructor <;> nlinarith [hsa.1, hsa.2]
  · simp only [h, if_false]
    exact hQ t b

/-- **C3.** Starting from the all-zero Q table, any finite sequence of
`update_Q` calls with step sizes in (0,1), a fixed discount γ in (0,1),
and rewards in `[-100, 1]` (the exact range of `parse_reward`, whose only
outputs are −100 and 1) keeps every entry of the table inside
`[-100/(1-γ), 1/(1-γ)]`; since every prefix of such a sequence again
satisfies the hypotheses, the bound holds after every update. -/
theorem q_table_bounded {S : Type} [DecidableEq S]
    (gamma : ℚ) (us : List (QUpdate S))
    (hg0 : 0 < gamma) (hg1 : gamma < 1)
    (hus : ∀ u ∈ us, 0 < u.alpha ∧ u.alpha < 1 ∧ -100 ≤ u.reward ∧ u.reward ≤ 1) :
    (∀ g, parse_reward g = -100 ∨ parse_reward g = 1) ∧
    ∀ t b, -100 / (1 - gamma) ≤ apply_updates gamma us (zero_Q (S := S)) t b ∧
           apply_updates gamma us (zero_Q (S := S)) t b ≤ 1 / (1 - gamma) := by
  have hgpos : (0 : ℚ) < 1 - gamma := by linarith
  refine ⟨fun g => ?_, ?_⟩
  · unfold parse_reward
    by_cases h : 0 ≤ g <;> simp [h]
  · -- strengthen to an invariant over any in-bounds starting table
    suffices H : ∀ (us : List (QUpdate S)) (Q : S → Fin 2 → ℚ),
        (∀ u ∈ us, 0 < u.alpha ∧ u.alpha < 1 ∧ -100 ≤ u.reward ∧ u.reward ≤ 1) →
        (∀ t b, -100 / (1 - gamma) ≤ Q t b ∧ Q t b ≤ 1 / (1 - gamma)) →
        ∀ t b, -100 / (1 - gamma) ≤ apply_updates gamma us Q t b ∧
               apply_updates gamma us Q t b ≤ 1 / (1 - gamma) by
      refine H us (zero_Q (S := S)) hus fun t b => ⟨?_, ?_⟩
      · rw [zero_Q, div_nonpos_iff]
        right; constructor <;> linarith
      · rw [zero_Q]
        positivity
    intro us
    induction us with
    | nil => intro Q _ hQ; exact hQ
    | cons u rest ih =>
      intro Q hrec hQ
      have hu := hrec u (List.mem_cons_self u rest)
      rw [apply_updates, List.foldl_cons]
      exact ih _ (fun v hv => hrec v (List.mem_cons_of_mem u hv))
        (update_Q_preserves_bounds hg0 hg1 hQ hu.1 hu.2.1 ⟨hu.2.2.1, hu.2.2.2⟩)

theorem q_table_bounded_witness :
    (0 : ℚ) < 1/2 ∧ (1/2 : ℚ) < 1 ∧
    (∀ u ∈ [QUpdate.mk (0 : Fin 1) 0 0 1 (1/2)],
        0 < u.alpha ∧ u.alpha < 1 ∧ -100 ≤ u.reward ∧ u.reward ≤ 1) ∧
    ((∀ g, parse_reward g = -100 ∨ parse_reward g = 1) ∧
      ∀ t b, -100 / (1 - (1/2 : ℚ)) ≤
          apply_updates (1/2) [QUpdate.mk (0 : Fin 1) 0 0 1 (1/2)] (zero_Q (S := Fin 1)) t b ∧
        apply_updates (1/2) [QUpdate.mk (0 : Fin 1) 0 0 1 (1/2)] (zero_Q (S := Fin 1)) t b ≤
          1 / (1 - (1/2 : ℚ))) :=
  ⟨by norm_num, by norm_num, by intro u hu; simp at hu; rw [hu]; refine ⟨by norm_num, by norm_num, by norm_num, by norm_num⟩,
   q_table_bounded (1/2) [QUpdate.mk (0 : Fin 1) 0 0 1 (1/2)] (by norm_num) (by norm_num)
     (by intro u hu; simp at hu; rw [hu]
         refine ⟨by norm_num, by norm_num, by norm_num, by norm_num⟩)⟩

/-- **C10.** Index safety of `parse_state`: when the pipe distance lies
in `[0, 350)` and both height differences lie in `[-512, 512)`, the three
bin indices are nonnegative and strictly below the Q-table dimensions
`(n_bins_dist, n_bins_top, n_bins_bot) = (35, 103, 103)`, so indexing
`Q` with the parsed state is in bounds. -/
theorem parse_state_in_bounds (g : GameState)
    (hd0 : 0 ≤ g.next_pipe_dist_to_player) (hd1 : g.next_pipe_dist_to_player < 350)
    (ht0 : -512 ≤ g.next_pipe_top_y - g.player_y)
    (ht1 : g.next_pipe_top_y - g.player_y < 512)
    (hb0 : -512 ≤ g.next_pipe_bottom_y - g.player_y)
    (hb1 : g.next_pipe_bottom_y - g.player_y < 512) :
    (n_bins_dist = 35 ∧ n_bins_top = 103 ∧ n_bins_bot = 103) ∧
    (0 ≤ (parse_state g).1 ∧ (parse_state g).1 < n_bins_dist) ∧
    (0 ≤ (parse_state g).2.1 ∧ (parse_state g).2.1 < n_bins_top) ∧
    (0 ≤ (parse_state g).2.2 ∧ (parse_state g).2.2 < n_bins_bot) := by
  have hbs : bin_size = 10 := rfl
  have hdims : n_bins_dist = 35 ∧ n_bins_top = 103 ∧ n_bins_bot = 103 := by
    refine ⟨?_, ?_, ?_⟩
    · unfold n_bins_dist bin_size; rw [Int.ceil_eq_iff]; norm_num
    · unfold n_bins_top bin_size; rw [Int.ceil_eq_iff]; norm_num
    · unfold n_bins_bot bin_size; rw [Int.ceil_eq_iff]; norm_num
  refine ⟨hdims, ?_, ?_, ?_⟩
  · rw [hdims.1]
    unfold parse_state
    rw [hbs]
    constructor
    · exact Int.floor_nonneg.2 (by positivity)
    · rw [Int.floor_lt]
      push_cast
      rw [div_lt_iff₀ (by norm_num)]
      linarith
  · rw [hdims.2.1]
    unfold parse_state
    rw [hbs]
    constructor
    · exact Int.floor_nonneg.2 (by rw [le_div_iff₀ (by norm_num)]; linarith)
    · rw [Int.floor_lt]
      push_cast
      rw [div_lt_iff₀ (by norm_num)]
      linarith
  · rw [hdims.2.2]
    unfold parse_state
    rw [hbs]
    constructor
    · exact Int.floor_nonneg.2 (by rw [le_div_iff₀ (by norm_num)]; linarith)
    · rw [Int.floor_lt]
      push_cast
      rw [div_lt_iff₀ (by norm_num)]
      linarith

theorem parse_state_in_bounds_witness :
    ((0 : ℚ) ≤ 17 ∧ (17 : ℚ) < 350 ∧
      (-512 : ℚ) ≤ 200 - 256 ∧ (200 : ℚ) - 256 < 512 ∧
      (-512 : ℚ) ≤ 400 - 256 ∧ (400 : ℚ) - 256 < 512) ∧
    ((n_bins_dist = 35 ∧ n_bins_top = 103 ∧ n_bins_bot = 103) ∧
      (0 ≤ (parse_state (GameState.mk 17 200 400 256)).1 ∧
        (parse_state (GameState.mk 17 200 400 256)).1 < n_bins_dist) ∧
      (0 ≤ (parse_state (GameState.mk 17 200 400 256)).2.1 ∧
        (parse_state (GameState.mk 17 200 400 256)).2.1 < n_bins_top) ∧
      (0 ≤ (parse_state (GameState.mk 17 200 400 256)).2.2 ∧
        (parse_state (GameState.mk 17 200 400 256)).2.2 < n_bins_bot)) :=
  ⟨⟨by norm_num, by norm_num, by norm_num, by norm_num, by norm_num, by norm_num⟩,
   parse_state_in_bounds (GameState.mk 17 200 400 256)
     (by norm_num) (by norm_num) (by norm_num) (by norm_num) (by norm_num) (by norm_num)⟩

/-- **C9.** `choose_action` returns 0 (the jump action, mapped by
`action_dict` to key 119) exactly when `Q[s][0] > Q[s][1]`; on a tie —
in particular on the all-zero initial table — it returns 1, which
`action_dict` maps to `None` (do nothing). -/
theorem choose_action_tie_breaking {S : Type} (s : S) (Q : S → Fin 2 → ℚ) :
    (choose_action s Q = 0 ↔ Q s 0 > Q s 1) ∧
    (Q s 0 = Q s 1 → choose_action s Q = 1) ∧
    choose_action s (zero_Q (S := S)) = 1 ∧
    action_dict 0 = some 119 ∧ action_dict 1 = none := by
  refine ⟨?_, ?_, ?_, rfl, rfl⟩
  · unfold choose_action
    by_cases h : Q s 0 > Q s 1 <;> simp [h]
  · intro h
    simp [choose_action, h]
  · simp [choose_action, zero_Q]

theorem choose_action_tie_breaking_witness :
    (choose_action (0 : Fin 1) (fun _ b => if b = 0 then 3 else 1) = 0 ↔
      (fun (_ : Fin 1) (b : Fin 2) => if b = 0 then (3 : ℚ) else 1) 0 0 >
      (fun (_ : Fin 1) (b : Fin 2) => if b = 0 then (3 : ℚ) else 1) 0 1) ∧
    choose_action (0 : Fin 1) (zero_Q (S := Fin 1)) = 1 :=
  ⟨(choose_action_tie_breaking (0 : Fin 1) (fun _ b => if b = 0 then 3 else 1)).1,
   (choose_action_tie_breaking (0 : Fin 1) (zero_Q (S := Fin 1))).2.2.1⟩

/-! Helper lemmas for the policy-iteration theorems. -/

theorem getD_map_range {α : Type} (f : ℕ → α) (d : α) {n i : ℕ} (h : i < n) :
    ((List.range n).map f).getD i d = f i := by
  rw [List.getD_eq_getElem ((List.range n).map f) d (by simpa using h)]
  simp

theorem env2_sweep_11 (v : List ℚ) :
    sweep env2 [1, 1] 1 v = [-1 + v.getD 1 0, 1 + v.getD 0 0] := by
  simp [sweep, env2, backup, List.range_succ]

theorem env2_sweep_01 (v : List ℚ) :
    sweep env2 [0, 1] 1 v = [-1 + v.getD 0 0, 1 + v.getD 0 0] := by
  simp [sweep, env2, backup, List.range_succ]

theorem env2_eval_11_even (k : ℕ) :
    policy_evaluation env2 [1, 1] 1 (2 * k) = [0, 0] := by
  induction k with
  | zero => simp [policy_evaluation]; rfl
  | succ n ih =>
    have h2 : 2 * (n + 1) = (2 * n + 1) + 1 := by ring
    rw [policy_evaluation, h2, Function.iterate_succ_apply', Function.iterate_succ_apply',
      ← policy_evaluation, ih, env2_sweep_11]
    norm_num [env2_sweep_11]

theorem env2_eval_01 (k : ℕ) :
    policy_evaluation env2 [0, 1] 1 (k + 1) = [-(k : ℚ) - 1, 1 - (k : ℚ)] := by
  induction k with
  | zero =>
    rw [policy_evaluation, Function.iterate_succ_apply', ← policy_evaluation]
    have h0 : policy_evaluation env2 [0, 1] 1 0 = [0, 0] := by
      simp [policy_evaluation]; rfl
    rw [h0, env2_sweep_01]
    norm_num
  | succ n ih =>
    rw [policy_evaluation, Function.iterate_succ_apply', ← policy_evaluation, ih,
      env2_sweep_01]
    push_cast
    norm_num
    ring

theorem env2_improve_00 : policy_improvement env2 [0, 0] 1 = [0, 1] := by
  have h0 : compute_action_value env2 0 [0, 0] 1 = [-1, -1] := by
    simp [compute_action_value, env2, backup, List.range_succ]
  have h1 : compute_action_value env2 1 [0, 0] 1 = [0, 1] := by
    simp [compute_action_value, env2, backup, List.range_succ]
  have ha0 : np_argmax [(-1 : ℚ), -1] = 0 := by simp [np_argmax, np_max]
  have ha1 : np_argmax [(0 : ℚ), 1] = 1 := by simp [np_argmax, np_max]
  have hrange : List.range env2.nS = [0, 1] := rfl
  rw [policy_improvement, hrange]
  simp [h0, h1, ha0, ha1]

/-- **C1, counterexample.** Policy iteration is *not* pointwise monotone:
on `env2`, starting from the policy `[1, 1]` (a possible draw of
`np.random.choice(range(env.nA), size=(env.nS))`), the value function of
round 1 is `[0, 0]` but the value function of round 2 — computed, as in
`policy_iteration`, by `policy_evaluation` with γ = 1.0 and 100 sweeps of
the greedily improved policy — is `[-100, -98]`: the value at state 0
strictly decreases from one round to the next. -/
theorem policy_iteration_not_monotone :
    (pi_round env2 (pi_round env2 [1, 1]).2).1.getD 0 0 <
      (pi_round env2 [1, 1]).1.getD 0 0 := by
  have hv1 : policy_evaluation env2 [1, 1] 1 100 = [0, 0] := by
    have h := env2_eval_11_even 50
    norm_num at h
    exact h
  have hround1 : pi_round env2 [1, 1] = ([0, 0], [0, 1]) := by
    rw [pi_round, hv1, env2_improve_00]
  have hv2 : policy_evaluation env2 [0, 1] 1 100 = [-100, -98] := by
    have h := env2_eval_01 99
    norm_num at h
    exact h
  rw [hround1]
  show (pi_round env2 [0, 1]).1.getD 0 0 < ([0, 0] : List ℚ).getD 0 0
  rw [pi_round, hv2]
  norm_num

/-- **C1, amended.** What does hold of the improvement step: it is
one-step greedy.  For every environment, value function, discount and
state `s < nS`, the action that `policy_improvement` writes for `s`
maximises `compute_action_value` — its one-step Bellman backup is ≥ the
backup of every action `a < nA`.  Pointwise monotonicity of the value
functions across successive rounds of `policy_iteration` fails
(see the counterexample), because `policy_evaluation` is truncated at
100 sweeps with γ = 1. -/
theorem policy_improvement_one_step_greedy (env : Env) (v : List ℚ) (gamma : ℚ)
    (s a : ℕ) (hs : s < env.nS) (ha : a < env.nA) :
    backup env gamma v s a ≤
      backup env gamma v s ((policy_improvement env v gamma).getD s 0) := by
  have hpol : (policy_improvement env v gamma).getD s 0 =
      np_argmax (compute_action_value env s v gamma) := by
    rw [policy_improvement]
    exact getD_map_range _ 0 hs
  set cav := compute_action_value env s v gamma with hcav
  have hlen : cav.length = env.nA := by
    rw [hcav, compute_action_value]
    simp
  have hne : cav ≠ [] := by
    intro hnil
    rw [hnil] at hlen
    simp at hlen
    omega
  have hargmax_lt : np_argmax cav < env.nA := hlen ▸ np_argmax_lt_length hne
  have hchoice : backup env gamma v s (np_argmax cav) = cav.getD (np_argmax cav) 0 := by
    rw [hcav, compute_action_value]
    exact (getD_map_range _ 0 hargmax_lt).symm
  have ha' : backup env gamma v s a = cav.getD a 0 := by
    rw [hcav, compute_action_value]
    exact (getD_map_range _ 0 ha).symm
  rw [hpol, hchoice, getD_np_argmax hne, ha']
  have hmem : cav.getD a 0 ∈ cav := by
    rw [List.getD_eq_getElem cav 0 (hlen ▸ ha)]
    exact List.getElem_mem _
  exact np_max_ge _ hmem

theorem policy_improvement_one_step_greedy_witness :
    1 < env2.nS ∧ 0 < env2.nA ∧
    backup env2 1 [0, 0] 1 0 ≤
      backup env2 1 [0, 0] 1 ((policy_improvement env2 [0, 0] 1).getD 1 0) :=
  ⟨by decide, by decide,
   policy_improvement_one_step_greedy env2 [0, 0] 1 1 0 (by decide) (by decide)⟩

/-- **C6, counterexample.** With `max_iter = 0` the Python
`policy_iteration` raises `UnboundLocalError` at `return value_function`
(the local is assigned only inside the loop body, which never runs), so
the call does not return a result; in the embedding the result is
`none`.  The claim's range "every `max_iter ≥ 0`" therefore fails at 0. -/
theorem policy_iteration_zero_rounds_no_result :
    policy_iteration env1 [0] 0 = none := rfl

/-- **C6, amended.** For every environment, initial policy and
`max_iter ≥ 1`, `policy_iteration` returns (it is a total function of its
inputs, hence deterministic, and the pure embedding leaves the transition
table untouched) after exactly `max_iter` evaluation-improvement rounds:
the result is the `max_iter`-fold composition of `pi_round`, whose
evaluation always uses γ = 1.0 and exactly 100 sweeps, with each extra
sweep of `policy_evaluation` unfolding one `sweep` application; there is
no convergence detection, and even when the policy is a fixed point of
the improvement round the loop still performs all `max_iter` rounds (the
result then equals a single round's result only because the round map is
deterministic). -/
theorem policy_iteration_runs_all_rounds (env : Env) (policy0 : List ℕ)
    (max_iter : ℕ) (hn : 1 ≤ max_iter) :
    policy_iteration env policy0 max_iter =
      some (pi_round env ((fun p => (pi_round env p).2)^[max_iter - 1] policy0)) ∧
    (∀ policy gamma k, policy_evaluation env policy gamma (k + 1) =
        sweep env policy gamma (policy_evaluation env policy gamma k)) ∧
    ((pi_round env policy0).2 = policy0 →
      policy_iteration env policy0 max_iter = some (pi_round env policy0)) := by
  obtain ⟨m, rfl⟩ : ∃ m, max_iter = m + 1 :=
    ⟨max_iter - 1, (Nat.succ_pred_eq_of_pos hn).symm⟩
  refine ⟨by rw [policy_iteration]; rfl, ?_, ?_⟩
  · intro policy gamma k
    rw [policy_evaluation, Function.iterate_succ_apply', ← policy_evaluation]
  · intro hfix
    have hiter := @Function.iterate_fixed _ (fun p => (pi_round env p).2) policy0 hfix m
    rw [policy_iteration, hiter]

theorem policy_iteration_runs_all_rounds_witness :
    1 ≤ 1 ∧
    (policy_iteration env1 [0] 1 =
        some (pi_round env1 ((fun p => (pi_round env1 p).2)^[1 - 1] [0])) ∧
      (∀ policy gamma k, policy_evaluation env1 policy gamma (k + 1) =
          sweep env1 policy gamma (policy_evaluation env1 policy gamma k)) ∧
      ((pi_round env1 [0]).2 = [0] →
        policy_iteration env1 [0] 1 = some (pi_round env1 [0]))) :=
  ⟨by decide, policy_iteration_runs_all_rounds env1 [0] 1 (by decide)⟩

/-! Helper lemmas for the statistical-learning theorems. -/

theorem mem_heads_values : ∀ (x y : List ℚ) (v : ℚ),
    v ∈ heads_values x y ↔
      ∃ i, i < x.length ∧ i < y.length ∧ x.getD i 0 = v ∧ y.getD i 0 = 1 := by
  intro x
  induction x with
  | nil => intro y v; simp [heads_values]
  | cons a xs ih =>
    intro y v
    cases y with
    | nil => simp [heads_values]
    | cons b ys =>
      have hcons : heads_values (a :: xs) (b :: ys) =
          (if b = 1 then [a] else []) ++ heads_values xs ys := by
        by_cases hb : b = 1 <;>
          simp [heads_values, List.zip_cons_cons, List.filter_cons, hb]
      rw [hcons]
      constructor
      · intro hv
        rcases List.mem_append.1 hv with hv | hv
        · by_cases hb : b = 1
          · rw [if_pos hb] at hv
            simp at hv
            exact ⟨0, by simp, by simp, by simp [hv.symm], by simp [hb]⟩
          · rw [if_neg hb] at hv
            simp at hv
        · obtain ⟨i, hix, hiy, hxv, hy1⟩ := (ih ys v).1 hv
          exact ⟨i + 1, by simpa using hix, by simpa using hiy, by simpa using hxv,
            by simpa using hy1⟩
      · rintro ⟨i, hix, hiy, hxv, hy1⟩
        cases i with
        | zero =>
          simp at hxv hy1
          rw [if_pos hy1, hxv]
          exact List.mem_append_left _ (List.mem_singleton_self v)
        | succ j =>
          refine List.mem_append_right _ ?_
          exact (ih ys v).2 ⟨j, by simpa using hix, by simpa using hiy,
            by simpa using hxv, by simpa using hy1⟩

/-- **C4.** For equal-length arrays `x` and `y`, `algorithm_p_hat` returns
the maximum of `x` over the positions where `y` equals 1.0 when at least
one such position exists (the result is attained at such a position and
dominates every such entry), and the sentinel 0.0 when none exists — in
particular on empty arrays, where no error is raised. -/
theorem algorithm_p_hat_spec (x y : List ℚ) (h : x.length = y.length) :
    ((∃ i, i < y.length ∧ y.getD i 0 = 1) →
        (∃ i, i < y.length ∧ y.getD i 0 = 1 ∧ algorithm_p_hat x y = x.getD i 0) ∧
        (∀ i, i < y.length → y.getD i 0 = 1 → x.getD i 0 ≤ algorithm_p_hat x y)) ∧
    ((∀ i, i < y.length → y.getD i 0 ≠ 1) → algorithm_p_hat x y = 0) ∧
    algorithm_p_hat [] [] = 0 := by
  refine ⟨?_, ?_, rfl⟩
  · rintro ⟨i, hi, hy1⟩
    have hne : heads_values x y ≠ [] := by
      intro hnil
      have hmem : x.getD i 0 ∈ heads_values x y :=
        (mem_heads_values x y _).2 ⟨i, h ▸ hi, hi, rfl, hy1⟩
      rw [hnil] at hmem
      exact List.not_mem_nil _ hmem
    have hval : algorithm_p_hat x y = np_max (heads_values x y) := by
      simp [algorithm_p_hat, hne]
    constructor
    · obtain ⟨j, hjx, hjy, hxv, hjy1⟩ :=
        (mem_heads_values x y _).1 (np_max_mem hne)
      exact ⟨j, hjy, hjy1, by rw [hval, hxv]⟩
    · intro i hi hy1
      rw [hval]
      exact np_max_ge _ ((mem_heads_values x y _).2 ⟨i, h ▸ hi, hi, rfl, hy1⟩)
  · intro hno
    have hnil : heads_values x y = [] := by
      cases hhv : heads_values x y with
      | nil => rfl
      | cons v t =>
        obtain ⟨i, hix, hiy, _, hy1⟩ :=
          (mem_heads_values x y v).1 (hhv ▸ List.mem_cons_self v t)
        exact absurd hy1 (hno i hiy)
    simp [algorithm_p_hat, hnil]

theorem algorithm_p_hat_spec_witness :
    ([3, 7, 5] : List ℚ).length = ([1, 0, 1] : List ℚ).length ∧
    (((∃ i, i < ([1, 0, 1] : List ℚ).length ∧ ([1, 0, 1] : List ℚ).getD i 0 = 1) →
        (∃ i, i < ([1, 0, 1] : List ℚ).length ∧ ([1, 0, 1] : List ℚ).getD i 0 = 1 ∧
          algorithm_p_hat [3, 7, 5] [1, 0, 1] = ([3, 7, 5] : List ℚ).getD i 0) ∧
        (∀ i, i < ([1, 0, 1] : List ℚ).length → ([1, 0, 1] : List ℚ).getD i 0 = 1 →
          ([3, 7, 5] : List ℚ).getD i 0 ≤ algorithm_p_hat [3, 7, 5] [1, 0, 1])) ∧
      ((∀ i, i < ([1, 0, 1] : List ℚ).length → ([1, 0, 1] : List ℚ).getD i 0 ≠ 1) →
        algorithm_p_hat [3, 7, 5] [1, 0, 1] = 0) ∧
      algorithm_p_hat [] [] = 0) :=
  ⟨rfl, algorithm_p_hat_spec [3, 7, 5] [1, 0, 1] rfl⟩

/-- **C5.** One-sided estimation bias: when the labels are produced by the
notebook's own labeling rule `y = indicator(x, p_star)` and the
generating threshold is nonnegative, the estimate `algorithm_p_hat(x, y)`
never exceeds `p_star`. -/
theorem p_hat_le_generating_threshold (x : List ℚ) (p_star : ℚ) (hp : 0 ≤ p_star) :
    algorithm_p_hat x (indicator x p_star) ≤ p_star := by
  by_cases hhv : heads_values x (indicator x p_star) = []
  · simpa [algorithm_p_hat, hhv] using hp
  · obtain ⟨i, hix, hiy, hxv, hy1⟩ :=
      (mem_heads_values x (indicator x p_star) _).1 (np_max_mem hhv)
    have hind : (indicator x p_star).getD i 0 = if x.getD i 0 < p_star then 1 else 0 := by
      rw [List.getD_eq_getElem _ _ hiy, List.getD_eq_getElem _ _ hix]
      simp [indicator]
    have hlt : x.getD i 0 < p_star := by
      by_contra hge
      rw [hind, if_neg hge] at hy1
      norm_num at hy1
    have hval : algorithm_p_hat x (indicator x p_star) =
        np_max (heads_values x (indicator x p_star)) := by
      simp [algorithm_p_hat, hhv]
    rw [hval, ← hxv]
    exact le_of_lt hlt

theorem p_hat_le_generating_threshold_witness :
    (0 : ℚ) ≤ 1/2 ∧ algorithm_p_hat [1/4, 3/4] (indicator [1/4, 3/4] (1/2)) ≤ 1/2 :=
  ⟨by norm_num, p_hat_le_generating_threshold [1/4, 3/4] (1/2) (by norm_num)⟩

/-! Helper lemmas for the recommender theorem. -/

theorem sq_dist_self (l : List ℚ) :
    ((l.zip l).map (fun t => (t.1 - t.2) ^ 2)).foldl (· + ·) 0 = 0 := by
  suffices h : ∀ (l : List ℚ) (acc : ℚ),
      ((l.zip l).map (fun t => (t.1 - t.2) ^ 2)).foldl (· + ·) acc = acc from h l 0
  intro l
  induction l with
  | nil => intro acc; rfl
  | cons a t ih =>
    intro acc
    simp only [List.zip_cons_cons, List.map_cons, List.foldl_cons]
    rw [show (a - a) ^ 2 = 0 by ring, add_zero]
    exact ih acc

theorem sq_dist_10_self (a : List ℚ) : sq_dist_10 a a = 0 := sq_dist_self (a.take 10)

theorem distances_at_bought (scores : List (List ℚ)) (bought_id : ℕ)
    (hb : bought_id < scores.length) :
    (distances scores bought_id).getD bought_id 0 = 0 := by
  unfold distances
  rw [List.getD_eq_getElem?_getD, List.getElem?_map, List.getElem?_eq_getElem hb]
  rw [List.getD_eq_getElem?_getD scores, List.getElem?_eq_getElem hb]
  simp only [Option.map_some', Option.getD_some]
  exact sq_dist_10_self _

/-- **C8.** For a valid item index and `num_recommendation ≥ 1`,
`recommend` works on the squared Euclidean distances taken over the first
10 latent components only (`sq_dist_10` inside `distances`), and returns
exactly the items at positions 1 through `num_recommendation` of an
ascending arrangement of those distances: `np_argsort` produces a
permutation of all row indices along which the distances are pairwise
non-decreasing, position 0 is dropped and the next `num_recommendation`
positions are returned.  When every other item is at strictly positive
distance (no duplicate of the bought item in the truncated latent
space), position 0 holds the queried item itself, so it is never
recommended. -/
theorem recommend_spec (scores : List (List ℚ)) (bought_id n : ℕ)
    (hb : bought_id < scores.length) (hn : 1 ≤ n) :
    List.Perm (np_argsort (distances scores bought_id)) (List.range scores.length) ∧
    List.Pairwise (fun i j => (distances scores bought_id).getD i 0 ≤
        (distances scores bought_id).getD j 0) (np_argsort (distances scores bought_id)) ∧
    recommend scores bought_id n =
      ((np_argsort (distances scores bought_id)).drop 1).take n ∧
    ((∀ j, j < scores.length → j ≠ bought_id →
        0 < (distances scores bought_id).getD j 0) →
      bought_id ∉ recommend scores bought_id n) := by
  set d := distances scores bought_id with hd
  set r := fun i j => d.getD i 0 ≤ d.getD j 0 with hr
  have hdlen : d.length = scores.length := by simp [hd, distances]
  have hperm : List.Perm (np_argsort d) (List.range scores.length) := by
    rw [np_argsort, hdlen]
    exact List.perm_insertionSort r _
  have hsorted : List.Pairwise r (np_argsort d) := by
    letI : IsTotal ℕ r := ⟨fun a b => le_total _ _⟩
    letI : IsTrans ℕ r := ⟨fun a b c hab hbc => le_trans hab hbc⟩
    exact List.sorted_insertionSort r _
  refine ⟨hperm, hsorted, rfl, ?_⟩
  intro hpos hmem
  have hmem1 : bought_id ∈ (np_argsort d).drop 1 :=
    List.take_subset _ _ hmem
  have hnd : (np_argsort d).Nodup :=
    hperm.nodup_iff.2 (List.nodup_range _)
  cases hσ : np_argsort d with
  | nil =>
    rw [hσ] at hmem1
    exact List.not_mem_nil _ hmem1
  | cons h0 rest =>
    rw [hσ] at hmem1
    simp only [List.drop_succ_cons, List.drop_zero] at hmem1
    rw [hσ] at hsorted hnd hperm
    have hr0 : r h0 bought_id := (List.pairwise_cons.1 hsorted).1 bought_id hmem1
    have hh0N : h0 < scores.length := by
      have hmr : h0 ∈ List.range scores.length :=
        hperm.subset (List.mem_cons_self h0 rest)
      simpa using hmr
    have hne : h0 ≠ bought_id := by
      intro heq
      exact (List.nodup_cons.1 hnd).1 (heq ▸ hmem1)
    have h0pos : 0 < d.getD h0 0 := hpos h0 hh0N hne
    have hb0 : d.getD bought_id 0 = 0 := distances_at_bought scores bought_id hb
    rw [hr, hb0] at hr0
    exact absurd (lt_of_lt_of_le h0pos hr0) (lt_irrefl 0)

theorem recommend_spec_witness :
    0 < ([[0], [2], [5]] : List (List ℚ)).length ∧ 1 ≤ 1 ∧
    (List.Perm (np_argsort (distances [[0], [2], [5]] 0))
        (List.range ([[0], [2], [5]] : List (List ℚ)).length) ∧
      List.Pairwise (fun i j => (distances [[0], [2], [5]] 0).getD i 0 ≤
          (distances [[0], [2], [5]] 0).getD j 0) (np_argsort (distances [[0], [2], [5]] 0)) ∧
      recommend [[0], [2], [5]] 0 1 =
        ((np_argsort (distances [[0], [2], [5]] 0)).drop 1).take 1 ∧
      ((∀ j, j < ([[0], [2], [5]] : List (List ℚ)).length → j ≠ 0 →
          0 < (distances [[0], [2], [5]] 0).getD j 0) →
        0 ∉ recommend [[0], [2], [5]] 0 1)) :=
  ⟨by decide, by decide, recommend_spec [[0], [2], [5]] 0 1 (by decide) (by decide)⟩

end PML
